import Mathlib

/-!
Verification of the menu-extraction engine of the local-beer-app repository.

The repository has three scraper modules (`scrape_1700.py`, `scrape_billsburg.py`,
`scrape_tradition.py`).  Each one turns a fetched HTML document into a list of
`BeerRecord` values.  This file gives a shallow embedding of the pure extraction
logic (strings are `List Char`, the parsed document is either a list of tagged
nodes or a list of text lines, an ABV parsed from a decimal literal is kept as
its exact decimal `DecNum` whose rational value `DecNum.toRat` is the parsed
float) and proves or refutes the specified properties.

Python regular-expression searches are embedded as explicit left-to-right scans.
For every pattern used by the source the greedy scan is equivalent to Python's
backtracking search because no quantified sub-pattern can steal characters that a
later part of the pattern needs (each quantified class is disjoint from the
character that may follow it); the word-boundary assertions of the Billsburg
patterns are modelled explicitly.
-/

namespace LocalBeer

/-! ## Characters and small string utilities -/

/-- ASCII apostrophe (U+0027). -/
def apoChar : Char := Char.ofNat 39

/-- Right single quotation mark, the smart quote (U+2019). -/
def rsqChar : Char := Char.ofNat 0x2019

/-- Left single quotation mark (U+2018). -/
def lsqChar : Char := Char.ofNat 0x2018

/-- Bullet character (U+2022), a delimiter on 1700 Brewing stat lines. -/
def bulletChar : Char := Char.ofNat 0x2022

/-- The characters of the Billsburg/Tradition apostrophe character class
`[â€™']`: the mojibake bytes of a UTF-8 right quote plus the ASCII apostrophe. -/
def mojA : Char := Char.ofNat 0xE2

def mojEuro : Char := Char.ofNat 0x20AC

def mojTM : Char := Char.ofNat 0x2122

def dashChar : Char := '-'

def pipeChar : Char := '|'

def pctChar : Char := '%'

def dotChar : Char := '.'

def underscoreChar : Char := Char.ofNat 95

def lowerC (c : Char) : Char := c.toLower

def upperC (c : Char) : Char := c.toUpper

def isSpaceC (c : Char) : Bool := c.isWhitespace

def isDigitC (c : Char) : Bool := c.isDigit

/-- Python `\w` on the ASCII range: letters, digits, underscore. -/
def isWordC (c : Char) : Bool := c.isAlphanum || c = underscoreChar

/-- A character kept verbatim by `slugify`: the class `[a-z0-9]`. -/
def isGoodC (c : Char) : Bool := c.isLower || c.isDigit

def lowerL (l : List Char) : List Char := l.map lowerC

def upperL (l : List Char) : List Char := l.map upperC

/-- Python `str.strip()` on the left. -/
def trimL (l : List Char) : List Char := l.dropWhile isSpaceC

/-- Python `str.strip()` on the right. -/
def trimR (l : List Char) : List Char := (l.reverse.dropWhile isSpaceC).reverse

/-- Python `str.strip()`. -/
def trim (l : List Char) : List Char := trimR (trimL l)

/-- Does `text` start with `pat` (exact characters)? -/
def startsWithL : List Char → List Char → Bool
  | [], _ => true
  | _ :: _, [] => false
  | p :: ps, c :: cs => (c = p) && startsWithL ps cs

/-- Python `pat in text` (exact substring containment). -/
def containsL (pat : List Char) : List Char → Bool
  | [] => startsWithL pat []
  | c :: cs => startsWithL pat (c :: cs) || containsL pat cs

/-- Does `text` start with `pat`, comparing case-insensitively? -/
def startsWithCI : List Char → List Char → Bool
  | [], _ => true
  | _ :: _, [] => false
  | p :: ps, c :: cs => (lowerC c = lowerC p) && startsWithCI ps cs

/-- Case-insensitive substring containment. -/
def containsCI (pat : List Char) : List Char → Bool
  | [] => startsWithCI pat []
  | c :: cs => startsWithCI pat (c :: cs) || containsCI pat cs

/-- Python `text.split(sep)` on a single separator character. -/
def splitOnC (sep : Char) : List Char → List (List Char)
  | [] => [[]]
  | c :: cs =>
    let r := splitOnC sep cs
    if c = sep then [] :: r
    else
      match r with
      | [] => [[c]]
      | h :: t => (c :: h) :: t

/-- Python `text.split(sep, 1)` when the separator occurs: the pieces before
and after the first occurrence; `none` when the separator is absent. -/
def splitFirst (sep : Char) : List Char → Option (List Char × List Char)
  | [] => none
  | c :: cs =>
    if c = sep then some ([], cs)
    else
      match splitFirst sep cs with
      | none => none
      | some (a, b) => some (c :: a, b)

/-- Value of a digit string, as `int()` does on a list of ASCII digits. -/
def digitsToNat (ds : List Char) : ℕ := ds.foldl (fun a c => 10 * a + (c.toNat - 48)) 0

/-- The exact value of `float("<ip>.<fp>")` for digit strings `ip`/`fp`:
integer-part value, fraction-part value, and number of fraction digits. -/
structure DecNum where
  ip : ℕ
  fn : ℕ
  fl : ℕ
deriving Repr, DecidableEq

/-- The rational value of a parsed decimal. -/
def DecNum.toRat (d : DecNum) : ℚ := (d.ip : ℚ) + (d.fn : ℚ) / (10 : ℚ) ^ d.fl

/-- Build the decimal from the matched digit lists. -/
def mkDec (ip fp : List Char) : DecNum := ⟨digitsToNat ip, digitsToNat fp, fp.length⟩

theorem DecNum.toRat_nonneg (d : DecNum) : 0 ≤ d.toRat := by
  unfold DecNum.toRat
  positivity

/-! ## Identifier builder (slugify)

`scrape_1700.py` lines 32–37 and `scrape_billsburg.py` lines 37–42 /
`scrape_tradition.py` lines 31–36 (the latter two are textually identical).
The only difference is the apostrophe character class that is removed:
the 1700 variant removes `'` and `’`; the Billsburg/Tradition variant removes
`â`, `€`, `™` and `'` (the mojibake of a right quote), but not `’` itself. -/

/-- One pass of `re.sub(r"[^a-z0-9]+", "-", ·)`: the flag records whether we
are inside a run of replaced characters. -/
def hyphAux : Bool → List Char → List Char
  | _, [] => []
  | inBad, c :: cs =>
    if isGoodC c then c :: hyphAux false cs
    else if inBad then hyphAux true cs
    else dashChar :: hyphAux true cs

def hyphenate (l : List Char) : List Char := hyphAux false l

/-- One pass of `re.sub(r"-+", "-", ·)`. -/
def collapseAux : Bool → List Char → List Char
  | _, [] => []
  | inDash, c :: cs =>
    if c = dashChar then
      if inDash then collapseAux true cs else dashChar :: collapseAux true cs
    else c :: collapseAux false cs

def collapseDashes (l : List Char) : List Char := collapseAux false l

def isDashC (c : Char) : Bool := c = dashChar

/-- Python `str.strip("-")`. -/
def stripDashes (l : List Char) : List Char :=
  ((l.dropWhile isDashC).reverse.dropWhile isDashC).reverse

/-- `slugify` from `scrape_1700.py` (removes `'` and `’`). -/
def slugify1700 (l : List Char) : List Char :=
  stripDashes (collapseDashes (hyphenate
    ((lowerL l).filter (fun c => !(c = apoChar || c = rsqChar)))))

/-- `slugify` from `scrape_billsburg.py` / `scrape_tradition.py`
(removes the characters of the class `[â€™']`). -/
def slugifyB (l : List Char) : List Char :=
  stripDashes (collapseDashes (hyphenate
    ((lowerL l).filter (fun c => !(c = mojA || c = mojEuro || c = mojTM || c = apoChar)))))

/-- Modelled from the spec: the identifier builder as §4.6 describes it —
lowercase, strip apostrophes and smart quotes, replace every run of
non-alphanumerics by one hyphen, trim hyphens. -/
def specSlug (l : List Char) : List Char :=
  stripDashes (collapseDashes (hyphenate
    ((lowerL l).filter (fun c => !(c = apoChar || c = rsqChar || c = lsqChar)))))

/-! ### Properties of the slugify pipeline -/

/-- `hasDD l = true` iff `l` contains two adjacent hyphens. -/
def hasDD : List Char → Bool
  | a :: b :: rest => (a = dashChar && b = dashChar) || hasDD (b :: rest)
  | _ => false

theorem hasDD_cons (a : Char) (l : List Char) :
    hasDD (a :: l) =
      ((decide (a = dashChar) && decide (l.head? = some dashChar)) || hasDD l) := by
  cases l <;> simp [hasDD]

theorem mem_hyphAux {c : Char} :
    ∀ (l : List Char) (b : Bool), c ∈ hyphAux b l → (isGoodC c || c = dashChar) = true := by
  intro l
  induction l with
  | nil => intro b h; simp [hyphAux] at h
  | cons x xs ih =>
    intro b h
    by_cases hg : isGoodC x
    · simp only [hyphAux, hg, if_pos, List.mem_cons] at h
      rcases h with rfl | h
      · simp [hg]
      · exact ih false h
    · cases b with
      | true =>
        simp only [hyphAux, hg, if_neg, Bool.false_eq_true, if_false, if_true] at h
        exact ih true h
      | false =>
        simp only [hyphAux, hg, Bool.false_eq_true, if_false, List.mem_cons] at h
        rcases h with rfl | h
        · simp
        · exact ih true h

theorem mem_collapseAux {c : Char} :
    ∀ (l : List Char) (b : Bool), c ∈ collapseAux b l → c ∈ l ∨ c = dashChar := by
  intro l
  induction l with
  | nil => intro b h; simp [collapseAux] at h
  | cons x xs ih =>
    intro b h
    by_cases hx : x = dashChar
    · subst hx
      cases b with
      | true =>
        simp only [collapseAux, if_pos, if_true] at h
        rcases ih true h with h' | h'
        · exact Or.inl (List.mem_cons_of_mem _ h')
        · exact Or.inr h'
      | false =>
        simp only [collapseAux, if_pos, Bool.false_eq_true, if_false, List.mem_cons] at h
        rcases h with rfl | h
        · exact Or.inr rfl
        · rcases ih true h with h' | h'
          · exact Or.inl (List.mem_cons_of_mem _ h')
          · exact Or.inr h'
    · simp only [collapseAux, hx, if_false, List.mem_cons] at h
      rcases h with rfl | h
      · exact Or.inl (List.mem_cons_self _ _)
      · rcases ih false h with h' | h'
        · exact Or.inl (List.mem_cons_of_mem _ h')
        · exact Or.inr h'

theorem mem_stripDashes {c : Char} {l : List Char} (h : c ∈ stripDashes l) : c ∈ l := by
  unfold stripDashes at h
  rw [List.mem_reverse] at h
  have h2 := (List.dropWhile_sublist _).mem h
  rw [List.mem_reverse] at h2
  exact (List.dropWhile_sublist _).mem h2

theorem collapseAux_true_head :
    ∀ l : List Char, ¬ ((collapseAux true l).head? = some dashChar) := by
  intro l
  induction l with
  | nil => simp [collapseAux]
  | cons x xs ih =>
    by_cases hx : x = dashChar
    · subst hx; simpa [collapseAux] using ih
    · simp [collapseAux, hx]

theorem hasDD_collapseAux :
    ∀ (l : List Char) (b : Bool), hasDD (collapseAux b l) = false := by
  intro l
  induction l with
  | nil => intro b; simp [collapseAux, hasDD]
  | cons x xs ih =>
    intro b
    by_cases hx : x = dashChar
    · subst hx
      cases b with
      | true => simpa [collapseAux] using ih true
      | false =>
        simp only [collapseAux, if_pos, Bool.false_eq_true, if_false]
        rw [hasDD_cons, ih true, Bool.or_false, Bool.and_eq_false_iff]
        right
        simpa using collapseAux_true_head xs
    · simp only [collapseAux, hx, if_false]
      rw [hasDD_cons, ih false, Bool.or_false, Bool.and_eq_false_iff]
      left
      simpa using hx

theorem hasDD_false_tail {a : Char} {l : List Char} (h : hasDD (a :: l) = false) :
    hasDD l = false := by
  rw [hasDD_cons, Bool.or_eq_false_iff] at h
  exact h.2

theorem hasDD_dropWhile (p : Char → Bool) :
    ∀ l : List Char, hasDD l = false → hasDD (l.dropWhile p) = false := by
  intro l
  induction l with
  | nil => intro h; simpa using h
  | cons x xs ih =>
    intro h
    by_cases hp : p x
    · rw [List.dropWhile_cons_of_pos hp]
      exact ih (hasDD_false_tail h)
    · rwa [List.dropWhile_cons_of_neg hp]

theorem hasDD_append_singleton (a : Char) :
    ∀ l : List Char,
      hasDD (l ++ [a]) =
        (hasDD l || (decide (l.getLast? = some dashChar) && decide (a = dashChar))) := by
  intro l
  induction l with
  | nil => simp [hasDD]
  | cons x xs ih =>
    rw [List.cons_append, hasDD_cons, ih, hasDD_cons]
    cases xs with
    | nil => simp [hasDD]
    | cons y ys =>
      rw [List.cons_append]
      simp only [List.head?_cons, List.getLast?_cons_cons]
      cases hxy : decide (x = dashChar) <;> cases h2 : hasDD (y :: ys) <;> simp

theorem hasDD_reverse : ∀ l : List Char, hasDD l.reverse = hasDD l := by
  intro l
  induction l with
  | nil => rfl
  | cons x xs ih =>
    rw [List.reverse_cons, hasDD_append_singleton, ih, hasDD_cons,
      List.getLast?_reverse]
    cases h1 : hasDD xs <;> cases h2 : decide (x = dashChar) <;>
      cases h3 : decide (xs.head? = some dashChar) <;> simp_all

theorem head?_dropWhile_not (p : Char → Bool) :
    ∀ (l : List Char) (c : Char), (l.dropWhile p).head? = some c → p c = false := by
  intro l
  induction l with
  | nil => intro c h; simp at h
  | cons x xs ih =>
    intro c h
    by_cases hp : p x
    · rw [List.dropWhile_cons_of_pos hp] at h
      exact ih c h
    · rw [List.dropWhile_cons_of_neg hp, List.head?_cons, Option.some_inj] at h
      subst h
      simpa using hp

theorem stripDashes_head {l : List Char} : ¬ ((stripDashes l).head? = some dashChar) := by
  intro h
  unfold stripDashes at h
  rw [List.head?_reverse] at h
  set w := (l.dropWhile isDashC).reverse with hw
  have hsfx : w.dropWhile isDashC <:+ w := List.dropWhile_suffix _
  obtain ⟨t, ht⟩ := hsfx
  have hne : w.dropWhile isDashC ≠ [] := by
    intro hnil
    rw [hnil] at h
    simp at h
  have hlast : (w.dropWhile isDashC).getLast? = w.getLast? := by
    conv_rhs => rw [← ht]
    exact (List.getLast?_append_of_ne_nil t hne).symm
  rw [hlast, hw, List.getLast?_reverse] at h
  have := head?_dropWhile_not isDashC l dashChar h
  simp [isDashC] at this

theorem stripDashes_getLast {l : List Char} :
    ¬ ((stripDashes l).getLast? = some dashChar) := by
  intro h
  unfold stripDashes at h
  rw [List.getLast?_reverse] at h
  have := head?_dropWhile_not isDashC _ dashChar h
  simp [isDashC] at this

theorem hasDD_stripDashes {l : List Char} (h : hasDD l = false) :
    hasDD (stripDashes l) = false := by
  unfold stripDashes
  rw [hasDD_reverse]
  apply hasDD_dropWhile
  rw [hasDD_reverse]
  exact hasDD_dropWhile _ _ h

/-- The invariants of one slugify pipeline output: only lowercase
alphanumerics and hyphens, no doubled hyphen, no leading or trailing hyphen. -/
theorem slug_pipeline_props (inner : List Char) :
    let r := stripDashes (collapseDashes (hyphenate inner))
    (∀ c ∈ r, (isGoodC c || c = dashChar) = true) ∧
      hasDD r = false ∧
      ¬ (r.head? = some dashChar) ∧ ¬ (r.getLast? = some dashChar) := by
  refine ⟨?_, ?_, stripDashes_head, stripDashes_getLast⟩
  · intro c hc
    have h1 := mem_stripDashes hc
    rcases mem_collapseAux _ _ h1 with h2 | h2
    · exact mem_hyphAux _ _ h2
    · simp [h2]
  · exact hasDD_stripDashes (hasDD_collapseAux _ _)

theorem slugify1700_props (s : List Char) :
    (∀ c ∈ slugify1700 s, (isGoodC c || c = dashChar) = true) ∧
      hasDD (slugify1700 s) = false ∧
      ¬ ((slugify1700 s).head? = some dashChar) ∧
      ¬ ((slugify1700 s).getLast? = some dashChar) :=
  slug_pipeline_props _

theorem slugifyB_props (s : List Char) :
    (∀ c ∈ slugifyB s, (isGoodC c || c = dashChar) = true) ∧
      hasDD (slugifyB s) = false ∧
      ¬ ((slugifyB s).head? = some dashChar) ∧
      ¬ ((slugifyB s).getLast? = some dashChar) :=
  slug_pipeline_props _

/-! ## Stat-line parsers

Embeddings of `parse_abv_ibu_and_style_from_line` (`scrape_1700.py` 49–86),
`parse_abv` / `parse_ibu` (`scrape_billsburg.py` 63–96) and `parse_abv`
(`scrape_tradition.py` 52–57). -/

/-- The optional `(?:\.\d+)?` group after the integer digits: returns the
fraction digits and the remaining input. -/
def fracSplit : List Char → List Char × List Char
  | [] => ([], [])
  | c :: tl =>
    if c = dotChar ∧ tl.takeWhile isDigitC ≠ [] then
      (tl.takeWhile isDigitC, tl.dropWhile isDigitC)
    else ([], c :: tl)

/-- The optional `%?`: consume one leading percent sign when present. -/
def dropOnePct : List Char → List Char
  | [] => []
  | c :: tl => if c = pctChar then tl else c :: tl

/-- Try `(\d+(?:\.\d+)?)\s*%?\s*ABV` (IGNORECASE) anchored at the start of
`cs` (the `%` really is optional in the source pattern). -/
def matchAbv1700At (cs : List Char) : Option DecNum :=
  let ds := cs.takeWhile isDigitC
  if ds = [] then none
  else
    let fr := fracSplit (cs.dropWhile isDigitC)
    let rest5 := (dropOnePct (fr.2.dropWhile isSpaceC)).dropWhile isSpaceC
    if startsWithCI "abv".toList rest5 then some (mkDec ds fr.1) else none

/-- `re.search` of the 1700 ABV pattern: leftmost match wins. -/
def searchAbv1700 : List Char → Option DecNum
  | [] => none
  | c :: tl =>
    match matchAbv1700At (c :: tl) with
    | some q => some q
    | none => searchAbv1700 tl

/-- Try `(\d+|N/A)\s*IBU` (IGNORECASE) anchored at the start of `cs`.
`some none` is a match of the `N/A` alternative (which the caller turns into
an absent IBU), `some (some v)` a digit match. -/
def matchIbu1700At (cs : List Char) : Option (Option ℕ) :=
  let ds := cs.takeWhile isDigitC
  if ds ≠ [] then
    let rest := (cs.dropWhile isDigitC).dropWhile isSpaceC
    if startsWithCI "ibu".toList rest then some (some (digitsToNat ds)) else none
  else if startsWithCI "n/a".toList cs then
    let rest := (cs.drop 3).dropWhile isSpaceC
    if startsWithCI "ibu".toList rest then some none else none
  else none

/-- `re.search` of the 1700 IBU pattern. -/
def searchIbu1700 : List Char → Option (Option ℕ)
  | [] => none
  | c :: tl =>
    match matchIbu1700At (c :: tl) with
    | some r => some r
    | none => searchIbu1700 tl

/-- `scrape_1700.py` lines 78–84: text between the first `•` and the
following `|`, when both delimiters occur in the line. -/
def styleFromLine1700 (l : List Char) : Option (List Char) :=
  if bulletChar ∈ l ∧ pipeChar ∈ l then
    match splitFirst bulletChar l with
    | some (_, after) =>
      let seg := trim ((splitFirst pipeChar after).elim after Prod.fst)
      if seg = [] then none else some seg
    | none => none
  else none

/-- `scrape_1700.py` lines 57–62: the producer guess is the stripped last
chunk of `line.split("|")`, kept only when non-empty. -/
def producerFromLine1700 (l : List Char) : Option (List Char) :=
  let chunks := (splitOnC pipeChar l).map trim
  match chunks.getLast? with
  | none => none
  | some g =>
    let g2 := trim g
    if g2 = [] then none else some g2

structure Parsed1700 where
  abv : Option DecNum
  ibu : Option ℕ
  style : Option (List Char)
  producer : Option (List Char)
deriving Repr, DecidableEq

/-- `parse_abv_ibu_and_style_from_line` from `scrape_1700.py`. -/
def parse_abv_ibu_and_style_from_line (l : List Char) : Parsed1700 :=
  { abv := searchAbv1700 l
    ibu := (searchIbu1700 l).join
    style := styleFromLine1700 l
    producer := producerFromLine1700 l }

/-- Python `\b` between `prev` (the character before the scan position,
absent at the string start) and a word character at the position. -/
def wordBoundaryBefore (prev : Option Char) : Bool :=
  match prev with
  | none => true
  | some c => !(isWordC c)

/-- The trailing `%\b` of the Billsburg ABV pattern: a percent sign followed
by a word character (since `%` is not a word character, the boundary after it
demands a word character next). -/
def pctThenWordC : List Char → Bool
  | c :: d :: _ => c = pctChar && isWordC d
  | _ => false

/-- The trailing `%` of a fullmatch: exactly one percent sign and the end. -/
def onlyPctC : List Char → Bool
  | [c] => c = pctChar
  | _ => false

/-- The trailing `\b` of the Billsburg IBU pattern after the digit run:
holds at the end of input or before a non-word character. -/
def boundaryAfterC : List Char → Bool
  | [] => true
  | d :: _ => !(isWordC d)

/-- The trailing `%\s*` + end of the Tradition fullmatch pattern. -/
def pctThenSpacesEndC : List Char → Bool
  | c :: tl => c = pctChar && (tl.dropWhile isSpaceC).isEmpty
  | [] => false

/-- Try `ABV\s*(\d+(?:\.\d+)?)\s*%\b` (IGNORECASE) anchored at the start of
`cs` (the leading `\b` is checked by the caller).  Since `%` is not a word
character, the trailing `\b` requires a word character right after it. -/
def matchAbvBAt (cs : List Char) : Option DecNum :=
  if startsWithCI "abv".toList cs then
    let r1 := (cs.drop 3).dropWhile isSpaceC
    let ds := r1.takeWhile isDigitC
    if ds = [] then none
    else
      let fr := fracSplit (r1.dropWhile isDigitC)
      if pctThenWordC (fr.2.dropWhile isSpaceC) then some (mkDec ds fr.1) else none
  else none

/-- `re.search` of the Billsburg ABV pattern, tracking the previous character
for the leading word boundary. -/
def searchAbvB : Option Char → List Char → Option DecNum
  | _, [] => none
  | prev, c :: tl =>
    match (if wordBoundaryBefore prev then matchAbvBAt (c :: tl) else none) with
    | some q => some q
    | none => searchAbvB (some c) tl

/-- `re.fullmatch(r"(\d+(?:\.\d+)?)\s*%", ·)`. -/
def fullmatchAbvB (cs : List Char) : Option DecNum :=
  let ds := cs.takeWhile isDigitC
  if ds = [] then none
  else
    let fr := fracSplit (cs.dropWhile isDigitC)
    if onlyPctC (fr.2.dropWhile isSpaceC) then some (mkDec ds fr.1) else none

/-- `parse_abv` from `scrape_billsburg.py`. -/
def parse_abvB (l : List Char) : Option DecNum :=
  let s := trim l
  match searchAbvB none s with
  | some q => some q
  | none => fullmatchAbvB s

/-- Try `IBU\s*(\d{1,3})\b` (IGNORECASE) anchored at the start of `cs`.
A maximal digit run longer than three cannot match (every shorter take ends
right before another digit, which is a word character, so the trailing `\b`
fails); a run of one to three digits matches iff the character after the run
is absent or not a word character. -/
def matchIbuBAt (cs : List Char) : Option ℕ :=
  if startsWithCI "ibu".toList cs then
    let r1 := (cs.drop 3).dropWhile isSpaceC
    let ds := r1.takeWhile isDigitC
    if ds = [] then none
    else if ds.length ≤ 3 && boundaryAfterC (r1.drop ds.length) then
      some (digitsToNat ds)
    else none
  else none

/-- `re.search` of the Billsburg IBU pattern. -/
def searchIbuB : Option Char → List Char → Option ℕ
  | _, [] => none
  | prev, c :: tl =>
    match (if wordBoundaryBefore prev then matchIbuBAt (c :: tl) else none) with
    | some v => some v
    | none => searchIbuB (some c) tl

/-- `parse_ibu` from `scrape_billsburg.py`: the first match is range-checked;
an out-of-range first match yields `None` without further search. -/
def parse_ibuB (l : List Char) : Option ℕ :=
  match searchIbuB none (trim l) with
  | some v => if 1 ≤ v ∧ v ≤ 150 then some v else none
  | none => none

/-- `parse_abv` from `scrape_tradition.py`:
`re.fullmatch(r"\s*(\d+(?:\.\d+)?)\s*%\s*", ·)`. -/
def parse_abvT (l : List Char) : Option DecNum :=
  let r0 := l.dropWhile isSpaceC
  let ds := r0.takeWhile isDigitC
  if ds = [] then none
  else
    let fr := fracSplit (r0.dropWhile isDigitC)
    if pctThenSpacesEndC (fr.2.dropWhile isSpaceC) then some (mkDec ds fr.1) else none

example : searchAbv1700 "5.3% ABV | 22 IBU | Acme Brewing".toList = some ⟨5, 3, 1⟩ := by decide
example : searchAbv1700 "5.3 ABV".toList = some ⟨5, 3, 1⟩ := by decide
example : searchAbv1700 "4% ABV 9% ABV".toList = some ⟨4, 0, 0⟩ := by decide
example : (searchIbu1700 "22 IBU".toList).join = some 22 := by decide
example : (searchIbu1700 "N/A IBU".toList).join = none := by decide
example : (searchIbu1700 "999 IBU".toList).join = some 999 := by decide
example : parse_abvB "ABV 5.3%".toList = none := by decide
example : parse_abvB "5.3%".toList = some ⟨5, 3, 1⟩ := by decide
example : parse_abvB "ABV 5.3%,".toList = none := by decide
example : parse_ibuB "IBU 22".toList = some 22 := by decide
example : parse_ibuB "IBU 999".toList = none := by decide
example : parse_ibuB "SRM 2".toList = none := by decide
example : parse_ibuB "IBU 9999 IBU 22".toList = some 22 := by decide
example : parse_abvT " 6.5 % ".toList = some ⟨6, 5, 1⟩ := by decide
example : parse_abvT "6.5% ABV".toList = none := by decide
example :
    producerFromLine1700 "5.3% ABV | 22 IBU | Acme Brewing".toList = some "Acme Brewing".toList := by
  decide

/-! ### Properties of the stat-line parsers -/

theorem fracSplit_suffix (rest : List Char) : (fracSplit rest).2 <:+ rest := by
  cases rest with
  | nil => exact List.suffix_refl _
  | cons c tl =>
    simp only [fracSplit]
    by_cases h : c = dotChar ∧ tl.takeWhile isDigitC ≠ []
    · rw [if_pos h]
      exact (List.dropWhile_suffix _).trans (List.suffix_cons c tl)
    · rw [if_neg h]

theorem dropOnePct_suffix (l : List Char) : dropOnePct l <:+ l := by
  cases l with
  | nil => exact List.suffix_refl _
  | cons c tl =>
    simp only [dropOnePct]
    by_cases h : c = pctChar
    · rw [if_pos h]
      exact List.suffix_cons c tl
    · rw [if_neg h]

theorem startsWithCI_suffix_contains {pat : List Char} :
    ∀ {l s : List Char}, startsWithCI pat s = true → s <:+ l → containsCI pat l = true := by
  intro l
  induction l with
  | nil =>
    intro s h1 h2
    rw [List.suffix_nil.mp h2] at h1
    simpa [containsCI] using h1
  | cons c cs ih =>
    intro s h1 h2
    rcases List.suffix_cons_iff.mp h2 with rfl | h2'
    · simp [containsCI, h1]
    · simp [containsCI, ih h1 h2']

theorem containsCI_tail {pat : List Char} {c : Char} {cs : List Char}
    (h : containsCI pat cs = true) : containsCI pat (c :: cs) = true := by
  simp [containsCI, h]

theorem containsCI_of_suffix {pat : List Char} :
    ∀ {s l : List Char}, containsCI pat s = true → s <:+ l → containsCI pat l = true := by
  intro s
  induction s with
  | nil =>
    intro l h1 _
    unfold containsCI at h1
    exact startsWithCI_suffix_contains h1 List.nil_suffix
  | cons c cs ih =>
    intro l h1 h2
    rw [containsCI, Bool.or_eq_true] at h1
    rcases h1 with h1 | h1
    · exact startsWithCI_suffix_contains h1 h2
    · exact ih h1 ((List.suffix_cons c cs).trans h2)

theorem startsWithCI_append {t : List Char} :
    ∀ {pat s : List Char}, startsWithCI pat s = true → startsWithCI pat (s ++ t) = true := by
  intro pat
  induction pat with
  | nil => intro s _; cases s <;> simp [startsWithCI]
  | cons p ps ih =>
    intro s h
    cases s with
    | nil => simp [startsWithCI] at h
    | cons c cs =>
      rw [startsWithCI, Bool.and_eq_true] at h
      rw [List.cons_append, startsWithCI, Bool.and_eq_true]
      exact ⟨h.1, ih h.2⟩

theorem containsCI_nil_pat : ∀ l : List Char, containsCI [] l = true := by
  intro l
  cases l <;> simp [containsCI, startsWithCI]

theorem containsCI_append_right {pat t : List Char} :
    ∀ {x : List Char}, containsCI pat x = true → containsCI pat (x ++ t) = true := by
  intro x
  induction x with
  | nil =>
    intro h
    unfold containsCI at h
    cases pat with
    | nil => exact containsCI_nil_pat t
    | cons p ps => simp [startsWithCI] at h
  | cons c cs ih =>
    intro h
    rw [containsCI, Bool.or_eq_true] at h
    rw [List.cons_append]
    rcases h with h | h
    · rw [containsCI, Bool.or_eq_true]
      exact Or.inl (startsWithCI_append h)
    · exact containsCI_tail (ih h)

theorem trimR_eq_append (x : List Char) : ∃ t, x = trimR x ++ t := by
  obtain ⟨t, ht⟩ := List.dropWhile_suffix isSpaceC (l := x.reverse)
  refine ⟨t.reverse, ?_⟩
  unfold trimR
  conv_lhs => rw [← List.reverse_reverse x, ← ht]
  rw [List.reverse_append]

theorem containsCI_trim {pat l : List Char} (h : containsCI pat (trim l) = true) :
    containsCI pat l = true := by
  unfold trim at h
  obtain ⟨t, ht⟩ := trimR_eq_append (trimL l)
  have h2 : containsCI pat (trimL l) = true := by
    rw [ht]
    exact containsCI_append_right h
  exact containsCI_of_suffix h2 (List.dropWhile_suffix _)

theorem mem_trim {c : Char} {l : List Char} (h : c ∈ trim l) : c ∈ l := by
  unfold trim trimR trimL at h
  rw [List.mem_reverse] at h
  have h2 := (List.dropWhile_sublist _).mem h
  rw [List.mem_reverse] at h2
  exact (List.dropWhile_sublist _).mem h2

/-- The ABV keyword is required by the 1700 ABV pattern: any match contains
`ABV` (case-insensitively). -/
theorem matchAbv1700At_contains {cs : List Char} {d : DecNum}
    (h : matchAbv1700At cs = some d) : containsCI "abv".toList cs = true := by
  simp only [matchAbv1700At] at h
  split at h
  · exact absurd h (by simp)
  · split at h
    case isTrue hsw =>
      exact startsWithCI_suffix_contains hsw
        ((List.dropWhile_suffix _).trans ((dropOnePct_suffix _).trans
          ((List.dropWhile_suffix _).trans ((fracSplit_suffix _).trans
            (List.dropWhile_suffix _)))))
    case isFalse => exact absurd h (by simp)

theorem searchAbv1700_contains :
    ∀ {l : List Char} {d : DecNum}, searchAbv1700 l = some d →
      containsCI "abv".toList l = true := by
  intro l
  induction l with
  | nil => intro d h; simp [searchAbv1700] at h
  | cons c cs ih =>
    intro d h
    unfold searchAbv1700 at h
    cases hm : matchAbv1700At (c :: cs) with
    | some q => exact matchAbv1700At_contains hm
    | none =>
      rw [hm] at h
      exact containsCI_tail (ih h)

theorem matchIbu1700At_contains {cs : List Char} {r : Option ℕ}
    (h : matchIbu1700At cs = some r) : containsCI "ibu".toList cs = true := by
  simp only [matchIbu1700At] at h
  split at h
  · split at h
    case isTrue hsw =>
      exact startsWithCI_suffix_contains hsw
        ((List.dropWhile_suffix _).trans (List.dropWhile_suffix _))
    case isFalse => exact absurd h (by simp)
  · split at h
    · split at h
      case isTrue hsw =>
        exact startsWithCI_suffix_contains hsw
          ((List.dropWhile_suffix _).trans (List.drop_suffix _ _))
      case isFalse => exact absurd h (by simp)
    · exact absurd h (by simp)

theorem searchIbu1700_contains :
    ∀ {l : List Char} {r : Option ℕ}, searchIbu1700 l = some r →
      containsCI "ibu".toList l = true := by
  intro l
  induction l with
  | nil => intro r h; simp [searchIbu1700] at h
  | cons c cs ih =>
    intro r h
    unfold searchIbu1700 at h
    cases hm : matchIbu1700At (c :: cs) with
    | some q => exact matchIbu1700At_contains hm
    | none =>
      rw [hm] at h
      exact containsCI_tail (ih h)

theorem pctThenWordC_mem {l : List Char} (h : pctThenWordC l = true) : pctChar ∈ l := by
  match l with
  | [] => simp [pctThenWordC] at h
  | [c] => simp [pctThenWordC] at h
  | c :: d :: rest =>
    rw [pctThenWordC, Bool.and_eq_true] at h
    have hc : c = pctChar := by simpa using h.1
    subst hc
    exact List.mem_cons_self _ _

theorem onlyPctC_mem {l : List Char} (h : onlyPctC l = true) : pctChar ∈ l := by
  match l with
  | [] => simp [onlyPctC] at h
  | [c] =>
    have hc : c = pctChar := by simpa [onlyPctC] using h
    subst hc
    exact List.mem_cons_self _ _
  | c :: d :: rest => simp [onlyPctC] at h

/-- A successful Billsburg ABV match always crosses a literal percent sign. -/
theorem matchAbvBAt_pct {cs : List Char} {d : DecNum}
    (h : matchAbvBAt cs = some d) : pctChar ∈ cs := by
  simp only [matchAbvBAt] at h
  split at h
  case isFalse => exact absurd h (by simp)
  case isTrue =>
    split at h
    · exact absurd h (by simp)
    · split at h
      case isTrue hp =>
        have hsfx :
            ((fracSplit (((cs.drop 3).dropWhile isSpaceC).dropWhile isDigitC)).2).dropWhile isSpaceC <:+ cs :=
          (List.dropWhile_suffix _).trans ((fracSplit_suffix _).trans
            ((List.dropWhile_suffix _).trans ((List.dropWhile_suffix _).trans
              (List.drop_suffix _ _))))
        exact hsfx.sublist.mem (pctThenWordC_mem hp)
      case isFalse => exact absurd h (by simp)

theorem searchAbvB_pct :
    ∀ {l : List Char} {prev : Option Char} {d : DecNum}, searchAbvB prev l = some d →
      pctChar ∈ l := by
  intro l
  induction l with
  | nil => intro prev d h; simp [searchAbvB] at h
  | cons c cs ih =>
    intro prev d h
    unfold searchAbvB at h
    by_cases hb : wordBoundaryBefore prev
    · rw [if_pos hb] at h
      cases hm : matchAbvBAt (c :: cs) with
      | some q => exact matchAbvBAt_pct hm
      | none =>
        rw [hm] at h
        exact List.mem_cons_of_mem _ (ih h)
    · rw [if_neg hb] at h
      exact List.mem_cons_of_mem _ (ih h)

theorem fullmatchAbvB_pct {cs : List Char} {d : DecNum}
    (h : fullmatchAbvB cs = some d) : pctChar ∈ cs := by
  simp only [fullmatchAbvB] at h
  split at h
  · exact absurd h (by simp)
  · split at h
    case isTrue hp =>
      have hsfx : ((fracSplit (cs.dropWhile isDigitC)).2).dropWhile isSpaceC <:+ cs :=
        (List.dropWhile_suffix _).trans ((fracSplit_suffix _).trans (List.dropWhile_suffix _))
      exact hsfx.sublist.mem (onlyPctC_mem hp)
    case isFalse => exact absurd h (by simp)

/-- `parse_abv` of `scrape_billsburg.py` produces a value only when the line
contains a literal percent sign, and the value is never negative. -/
theorem parse_abvB_only_pct {l : List Char} {d : DecNum}
    (h : parse_abvB l = some d) : pctChar ∈ l ∧ 0 ≤ d.toRat := by
  refine ⟨?_, DecNum.toRat_nonneg d⟩
  simp only [parse_abvB] at h
  cases hs : searchAbvB none (trim l) with
  | some q =>
    rw [hs] at h
    exact mem_trim (searchAbvB_pct hs)
  | none =>
    rw [hs] at h
    exact mem_trim (fullmatchAbvB_pct h)

theorem matchIbuBAt_contains {cs : List Char} {v : ℕ}
    (h : matchIbuBAt cs = some v) : containsCI "ibu".toList cs = true := by
  simp only [matchIbuBAt] at h
  split at h
  case isTrue hsw => exact startsWithCI_suffix_contains hsw (List.suffix_refl _)
  case isFalse => exact absurd h (by simp)

theorem searchIbuB_contains :
    ∀ {l : List Char} {prev : Option Char} {v : ℕ}, searchIbuB prev l = some v →
      containsCI "ibu".toList l = true := by
  intro l
  induction l with
  | nil => intro prev v h; simp [searchIbuB] at h
  | cons c cs ih =>
    intro prev v h
    unfold searchIbuB at h
    by_cases hb : wordBoundaryBefore prev
    · rw [if_pos hb] at h
      cases hm : matchIbuBAt (c :: cs) with
      | some q => exact matchIbuBAt_contains hm
      | none =>
        rw [hm] at h
        exact containsCI_tail (ih h)
    · rw [if_neg hb] at h
      exact containsCI_tail (ih h)

/-- `parse_ibu` of `scrape_billsburg.py` produces a value only when the line
contains the IBU keyword and the value lies in the range 1–150. -/
theorem parse_ibuB_only {l : List Char} {v : ℕ}
    (h : parse_ibuB l = some v) :
    containsCI "ibu".toList l = true ∧ 1 ≤ v ∧ v ≤ 150 := by
  simp only [parse_ibuB] at h
  split at h
  next w hs =>
    split at h
    next hrange =>
      rw [Option.some_inj] at h
      subst h
      exact ⟨containsCI_trim (searchIbuB_contains hs), hrange⟩
    next => exact absurd h (by simp)
  next hs => exact absurd h (by simp)

/-! ## The record shape

All three scrapers declare the same dataclass. -/

structure BeerRecord where
  id : List Char
  breweryName : List Char
  breweryCity : List Char
  producerName : List Char
  name : List Char
  style : Option (List Char)
  abv : Option DecNum
  ibu : Option ℕ
  tapGroup : List Char
  category : List Char
  sourceUrl : List Char
  lastScraped : List Char
deriving DecidableEq, Repr

/-! ## 1700 Brewing page extraction (`scrape_1700.py` 89–208)

The parsed document is modelled as the flat sibling sequence of tagged nodes
(`h1`/`h2`/`h3`/other); each node carries its extracted text. -/

def commaChar : Char := ','

/-- The leading-ordinal strip of `parse_beer_header`:
`re.match(r"^\d+\.\s*(.+)$", ·)` keeps the (stripped) group when it matches. -/
def stripLeadingOrdinal (t : List Char) : List Char :=
  let ds := t.takeWhile isDigitC
  if ds = [] then t
  else
    match t.drop ds.length with
    | c :: tl =>
      if c = dotChar then
        let g := tl.dropWhile isSpaceC
        if g = [] then t else trim g
      else t
    | [] => t

/-- `parse_beer_header` from `scrape_1700.py`: strip the ordinal, then split
name and style at the first comma. -/
def parse_beer_header (text : List Char) : List Char × Option (List Char) :=
  let t := stripLeadingOrdinal (trim text)
  match splitFirst commaChar t with
  | some (a, b) => (trim a, some (trim b))
  | none => (t, none)

inductive Tag
  | h1
  | h2
  | h3
  | other
deriving DecidableEq, Repr

structure Node where
  tag : Tag
  text : List Char
deriving DecidableEq, Repr

def breweryName1700 : List Char := "1700 Brewing".toList

def breweryCity1700 : List Char := "Newport News".toList

def drinkMenuUrl : List Char := "https://1700brewing.beer/newport-news-1700-brewing-drink-menu".toList

def ourDrinksPat : List Char := "Our Drinks".toList

def anchorErrMsg : List Char := "missing Our Drinks anchor in page".toList

/-- The nodes after the first `h1`/`h2` whose text contains "Our Drinks"
(`find_all(["h1", "h2"])` + `find_next_sibling`), or `none`. -/
def findAnchorRest : List Node → Option (List Node)
  | [] => none
  | n :: rest =>
    if (n.tag = Tag.h1 ∨ n.tag = Tag.h2) ∧ containsL ourDrinksPat n.text then some rest
    else findAnchorRest rest

/-- Each `h2` after the anchor, paired with its following siblings up to (and
excluding) the next `h2`. -/
def h2Segments : List Node → List (Node × List Node)
  | [] => []
  | n :: rest =>
    if n.tag = Tag.h2 then
      (n, rest.takeWhile (fun m => ¬ m.tag = Tag.h2)) :: h2Segments rest
    else h2Segments rest

/-- `scrape_1700.py` 158–171: the first non-empty text containing both `ABV`
and `IBU` (case-sensitively) among the siblings after an `h3`, stopping at
the next `h2` or `h3`. -/
def scanAbvLine : List Node → Option (List Char)
  | [] => none
  | n :: rest =>
    if n.tag = Tag.h2 ∨ n.tag = Tag.h3 then none
    else if n.text ≠ [] ∧ containsL "ABV".toList n.text ∧ containsL "IBU".toList n.text then
      some n.text
    else scanAbvLine rest

/-- `scrape_1700.py` 150–206: walk the nodes of one tap-group segment and
emit a record for every `h3` that has a following ABV/IBU line. -/
def processSegment (now tapGroup category : List Char) : List Node → List BeerRecord
  | [] => []
  | n :: rest =>
    if n.tag = Tag.h3 then
      let hd := parse_beer_header n.text
      match scanAbvLine rest with
      | none => processSegment now tapGroup category rest
      | some abvLine =>
        let p := parse_abv_ibu_and_style_from_line abvLine
        let style :=
          match hd.2 with
          | some s => if s = [] then p.style else some s
          | none => p.style
        let producer := (p.producer).getD breweryName1700
        { id := slugify1700 breweryName1700 ++ [dashChar] ++ slugify1700 hd.1
          breweryName := breweryName1700
          breweryCity := breweryCity1700
          producerName := producer
          name := hd.1
          style := style
          abv := p.abv
          ibu := p.ibu
          tapGroup := tapGroup
          category := category
          sourceUrl := drinkMenuUrl
          lastScraped := now } :: processSegment now tapGroup category rest
    else processSegment now tapGroup category rest

/-- Category rule of `scrape_1700.py` 144–148. -/
def category1700 (tapGroup : List Char) : List Char :=
  if containsL "Reserves".toList tapGroup then "guest_na".toList else "on_tap".toList

/-- `parse_1700_page`: raises (`Except.error`) when the anchor is missing. -/
def parse_1700_page (now : List Char) (doc : List Node) : Except (List Char) (List BeerRecord) :=
  match findAnchorRest doc with
  | none => Except.error anchorErrMsg
  | some rest =>
    Except.ok ((h2Segments rest).flatMap (fun gs =>
      processSegment now gs.1.text (category1700 gs.1.text) gs.2))

/-- The record list of a 1700 run (empty when the parse raised). -/
def run1700 (doc : List Node) : List BeerRecord :=
  match parse_1700_page [] doc with
  | Except.ok l => l
  | Except.error _ => []

example :
    parse_beer_header "12. Minute of Angle MOA".toList =
      ("Minute of Angle MOA".toList, none) := by decide

example :
    parse_beer_header "1. Plain Old Lager (P.O.L.), Lager - Vienna".toList =
      ("Plain Old Lager (P.O.L.)".toList, some "Lager - Vienna".toList) := by decide

example :
    run1700 [⟨Tag.h1, "Our Drinks".toList⟩, ⟨Tag.h2, "Air Force Taps".toList⟩,
      ⟨Tag.h3, "3. Golden Ale, Blonde Ale".toList⟩,
      ⟨Tag.other, "5.0% ABV | 15 IBU | River Brewing".toList⟩] =
      [{ id := "1700-brewing-golden-ale".toList
         breweryName := breweryName1700
         breweryCity := breweryCity1700
         producerName := "River Brewing".toList
         name := "Golden Ale".toList
         style := some "Blonde Ale".toList
         abv := some ⟨5, 0, 1⟩
         ibu := some 15
         tapGroup := "Air Force Taps".toList
         category := "on_tap".toList
         sourceUrl := drinkMenuUrl
         lastScraped := [] }] := by decide

/-! ## Billsburg page extraction (`scrape_billsburg.py` 159–279)

The page text is flattened to lines; the loop index `i` with its backward and
forward scans is modelled by walking the line list with the reversed prefix
of already-visited lines at hand.  The network-dependent enrichment call at
the end of `parse_billsburg_page` is modelled separately (`fillRecord`). -/

def breweryNameB : List Char := "Billsburg Brewery".toList

def breweryCityB : List Char := "Williamsburg".toList

def taplistUrl : List Char := "https://taplist.io/taplist-739667".toList

/-- `is_brewery_line`: `line.strip().lower() == "billsburg brewery"`. -/
def is_brewery_line (l : List Char) : Bool := lowerL (trim l) = "billsburg brewery".toList

/-- `is_noise` from `parse_billsburg_page`. -/
def is_noise (l : List Char) : Bool :=
  startsWithL "last updated:".toList (lowerL l) ||
  startsWithL "powered by".toList (lowerL l) ||
  containsL "powered by taplist".toList (lowerL l) ||
  (lowerL l = "taplist.io".toList) ||
  containsL "instant digital menus".toList (lowerL l)

/-- `line.lower().startswith("coming soon")`. -/
def comingSoonB (l : List Char) : Bool := startsWithL "coming soon".toList (lowerL l)

/-- `re.search(r"\bSRM\b", ·, IGNORECASE)`. -/
def hasWordSRM : Option Char → List Char → Bool
  | _, [] => false
  | prev, c :: tl =>
    (wordBoundaryBefore prev && startsWithCI "srm".toList (c :: tl) &&
      boundaryAfterC ((c :: tl).drop 3)) ||
    hasWordSRM (some c) tl

/-- `re.fullmatch(r"\d{1,3}", line.strip())`. -/
def isShortDigits (l : List Char) : Bool :=
  let t := trim l
  !t.isEmpty && t.length ≤ 3 && t.all isDigitC

/-- The style assignment of `scrape_billsburg.py` 245–254 for one body line. -/
def styleCandidateB (st : Option (List Char)) (nxt : List Char) : Option (List Char) :=
  match st with
  | some s => some s
  | none =>
    if ¬ containsL "ABV".toList (upperL nxt) = true ∧
        ¬ containsL "IBU".toList (upperL nxt) = true ∧
        ¬ containsL "SRM".toList (upperL nxt) = true then
      if pctChar ∈ nxt then none
      else if isShortDigits nxt then none
      else if 2 ≤ nxt.length ∧ nxt.length ≤ 40 then some nxt
      else none
    else none

structure BScanState where
  style : Option (List Char)
  abv : Option DecNum
  ibu : Option ℕ
deriving DecidableEq, Repr

/-- The forward body scan of `scrape_billsburg.py` 212–256: `rest` is the
line list from index `i + 1` on; the `k + 1` lookahead is the head of the
tail. -/
def bScan : List (List Char) → BScanState → BScanState
  | [], st => st
  | nxt :: rest, st =>
    if (match rest with | r :: _ => is_brewery_line r | [] => false) then st
    else if comingSoonB nxt then st
    else if is_noise nxt then st
    else if is_brewery_line nxt then st
    else
      match parse_abvB nxt with
      | some v => bScan rest { st with abv := some v }
      | none =>
        match parse_ibuB nxt with
        | some v => bScan rest { st with ibu := some v }
        | none =>
          if hasWordSRM none nxt then bScan rest st
          else bScan rest { st with style := styleCandidateB st.style nxt }

/-- The backward beer-name scan of `scrape_billsburg.py` 194–203, walking the
reversed prefix of the lines before the brewery line. -/
def bBackList : List (List Char) → Option (List Char)
  | [] => none
  | prev :: rest =>
    if is_noise prev || comingSoonB prev || containsL "current menu".toList (lowerL prev) then
      bBackList rest
    else some prev

structure BState where
  group : List Char
  category : List Char
  beers : List BeerRecord
deriving DecidableEq, Repr

def mkRecordB (now : List Char) (st : BState) (beerName : List Char)
    (sc : BScanState) : BeerRecord :=
  { id := slugifyB (breweryNameB ++ [dashChar] ++ beerName)
    breweryName := breweryNameB
    breweryCity := breweryCityB
    producerName := breweryNameB
    name := beerName
    style := sc.style
    abv := sc.abv
    ibu := sc.ibu
    tapGroup := st.group
    category := st.category
    sourceUrl := taplistUrl
    lastScraped := now }

/-- One iteration of the `for i in range(len(lines))` loop. -/
def bStep (now : List Char) (prefixRev : List (List Char)) (line : List Char)
    (rest : List (List Char)) (st : BState) : BState :=
  if comingSoonB line then
    { st with group := "Coming Soon".toList, category := "coming_soon".toList }
  else if !(is_brewery_line line) then st
  else
    match bBackList prefixRev with
    | none => st
    | some beerName =>
      if beerName = [] then st
      else
        let sc := bScan rest ⟨none, none, none⟩
        { st with beers := st.beers ++ [mkRecordB now st beerName sc] }

def bLoop (now : List Char) : List (List Char) → List (List Char) → BState → BState
  | _, [], st => st
  | prefixRev, line :: rest, st =>
    bLoop now (line :: prefixRev) rest (bStep now prefixRev line rest st)

/-- `parse_billsburg_page` on the flattened line list (before the optional
enrichment step, which only ever touches `style`/`abv`). -/
def parse_billsburg_page (now : List Char) (rawLines : List (List Char)) : List BeerRecord :=
  let lines := (rawLines.map trim).filter (fun l => !l.isEmpty)
  (bLoop now [] lines ⟨"On Tap".toList, "on_tap".toList, []⟩).beers

example :
    parse_billsburg_page []
      ["Golden Ale".toList, "Billsburg Brewery".toList, "IPA".toList,
        "ABV 5.3%".toList, "IBU 22".toList] =
      [{ id := "billsburg-brewery-golden-ale".toList
         breweryName := breweryNameB
         breweryCity := breweryCityB
         producerName := breweryNameB
         name := "Golden Ale".toList
         style := some "IPA".toList
         abv := none
         ibu := some 22
         tapGroup := "On Tap".toList
         category := "on_tap".toList
         sourceUrl := taplistUrl
         lastScraped := [] }] := by decide

/-! ## Tradition page extraction (`scrape_tradition.py` 60–214)

The loop index jumps (`i = j + 1` past a `* * *` separator, else `i + 1`) are
modelled by recursing on suffixes with a fuel counter equal to the section
length; every iteration consumes at least one line, so the fuel is never
exhausted on the real recursion. -/

def breweryNameT : List Char := "Tradition Brewing Company".toList

def breweryCityT : List Char := "Newport News".toList

def traditionUrl : List Char := "https://traditionbrewing.com/location/taproom/".toList

/-- The anchor text `"what's on tap"` (with an ASCII apostrophe). -/
def whatsOnTap : List Char := "what".toList ++ [apoChar] ++ "s on tap".toList

def weeklyLineup : List Char := "WEEKLY LINEUP".toList

def sepStars : List Char := "* * *".toList

def pipeWord : List Char := "|".toList

def legendWordsT : List (List Char) :=
  ["draft".toList, "can".toList, "bottle".toList, "growler".toList, "crowler".toList]

def headerWordsT : List (List Char) :=
  ["Taproom".toList, "Visit Us".toList, "Location".toList, "Hours".toList]

/-- First percent line of the chunk (`scrape_tradition.py` 139–143). -/
def findFirstAbvT : List (List Char) → Option DecNum
  | [] => none
  | c :: tl =>
    match parse_abvT c with
    | some v => some v
    | none => findFirstAbvT tl

/-- Backward style scan before the `"|"` chunk element
(`scrape_tradition.py` 147–167), on the reversed prefix. -/
def styleBackT : List (List Char) → Option (List Char)
  | [] => none
  | cand :: rest =>
    let c := trim cand
    if c.isEmpty then styleBackT rest
    else if lowerL c ∈ legendWordsT then styleBackT rest
    else if c = pipeWord then styleBackT rest
    else if pctChar ∈ c then styleBackT rest
    else if 2 ≤ c.length ∧ c.length ≤ 40 then some c
    else none

/-- Forward fallback style scan (`scrape_tradition.py` 168–182). -/
def styleFwdT : List (List Char) → Option (List Char)
  | [] => none
  | cand :: rest =>
    let c := trim cand
    if c.isEmpty then styleFwdT rest
    else if lowerL c ∈ legendWordsT then styleFwdT rest
    else if pctChar ∈ c then styleFwdT rest
    else if c = pipeWord then styleFwdT rest
    else if 2 ≤ c.length ∧ c.length ≤ 40 then some c
    else styleFwdT rest

/-- Style of one chunk: backward from the `"|"` element when present,
otherwise the forward fallback. -/
def styleT (chunk : List (List Char)) : Option (List Char) :=
  match chunk.findIdx? (fun c => c = pipeWord) with
  | some idx => styleBackT (chunk.take idx).reverse
  | none => styleFwdT chunk

def mkRecordT (now ln : List Char) (style : Option (List Char))
    (abv : Option DecNum) : BeerRecord :=
  { id := slugifyB (breweryNameT ++ [dashChar] ++ ln)
    breweryName := breweryNameT
    breweryCity := breweryCityT
    producerName := breweryNameT
    name := ln
    style := style
    abv := abv
    ibu := none
    tapGroup := "On Tap".toList
    category := "on_tap".toList
    sourceUrl := traditionUrl
    lastScraped := now }

/-- The main scan loop of `parse_tradition` (lines 103–202). -/
def tLoop (now : List Char) : ℕ → List (List Char) → List BeerRecord
  | 0, _ => []
  | _, [] => []
  | fuel + 1, ln :: tl =>
    if lowerL ln ∈ legendWordsT then tLoop now fuel tl
    else if ln ∈ headerWordsT then tLoop now fuel tl
    else if trim ln = pipeWord ∨ trim ln = sepStars then tLoop now fuel tl
    else
      let chunk := tl.takeWhile (fun nxt => ¬ trim nxt = sepStars)
      let r := mkRecordT now ln (styleT chunk) (findFirstAbvT chunk)
      match tl.drop chunk.length with
      | _ :: r2 => r :: tLoop now fuel r2
      | [] => r :: tLoop now fuel tl

/-- One step of the Python-dict insertion `dedup[b.id] = b`: replace the
value in place when the key exists, else append the pair. -/
def dedupInsert (acc : List (List Char × BeerRecord)) (b : BeerRecord) :
    List (List Char × BeerRecord) :=
  if acc.any (fun p => p.1 = b.id) then
    acc.map (fun p => if p.1 = b.id then (p.1, b) else p)
  else acc ++ [(b.id, b)]

/-- `scrape_tradition.py` 204–208: `dedup = {}; for b in beers: dedup[b.id] = b;
list(dedup.values())` with insertion-ordered dict semantics. -/
def dedupById (l : List BeerRecord) : List BeerRecord :=
  (l.foldl dedupInsert []).map Prod.snd

/-- `parse_tradition` on the flattened line list. -/
def parse_tradition (now : List Char) (rawLines : List (List Char)) : List BeerRecord :=
  let lines := (rawLines.map trim).filter (fun l => !l.isEmpty)
  match lines.findIdx? (fun ln => lowerL ln = whatsOnTap) with
  | none => []
  | some start =>
    let endIdx := (lines.findIdx? (fun ln => upperL (trim ln) = weeklyLineup)).getD lines.length
    let sect := (lines.take endIdx).drop start
    dedupById (tLoop now sect.length sect)

example :
    (parse_tradition [] ["What".toList ++ [apoChar] ++ "s On Tap".toList,
      "Scots Landing".toList, "Hazy IPA".toList, "6.5%".toList,
      "* * *".toList, "Second Beer".toList, "Gose".toList, "4.2%".toList]).map
        (fun b => (b.name, b.style, b.abv)) =
      [("What".toList ++ [apoChar] ++ "s On Tap".toList, some "Scots Landing".toList,
          some ⟨6, 5, 1⟩),
        ("Second Beer".toList, some "Gose".toList, some ⟨4, 2, 1⟩),
        ("Gose".toList, none, some ⟨4, 2, 1⟩),
        ("4.2%".toList, none, none)] := by decide

example :
    parse_tradition [] ["Taproom".toList, "Hours".toList] = [] := by decide

/-! ## Cross-source enricher (`scrape_billsburg.py` 58–60 and 142–154)

The mapping built from the secondary page associates a normalized name key
with a style string and an ABV value; the fill loop touches only missing
`style`/`abv` fields. -/

/-- `build_name_key`: `re.sub(r"[^a-z0-9]+", "", name.lower()).strip()`. -/
def build_name_key (name : List Char) : List Char :=
  trim ((lowerL name).filter isGoodC)

structure EnrichVal where
  style : List Char
  abv : DecNum
deriving DecidableEq, Repr

/-- The body of the fill loop (`scrape_billsburg.py` 143–154) for one record:
fill `style` when it is absent and the mapping value is truthy, then fill
`abv` when it is absent. -/
def fillRecord (m : List Char → Option EnrichVal) (b : BeerRecord) : BeerRecord :=
  match m (build_name_key b.name) with
  | none => b
  | some v =>
    let b1 := if b.style = none ∧ v.style ≠ [] then { b with style := some v.style } else b
    if b1.abv = none then { b1 with abv := some v.abv } else b1

/-- The whole fill pass over the record list. -/
def enrichRecords (m : List Char → Option EnrichVal) (beers : List BeerRecord) :
    List BeerRecord :=
  beers.map (fillRecord m)

/-! ## Deduplication characterization

`dedupById` is the Python insertion-ordered dict: the surviving value for a
key is the last one assigned, the key order is first-occurrence order. -/

/-- First-value lookup in the association list. -/
def alookup (k : List Char) : List (List Char × BeerRecord) → Option BeerRecord
  | [] => none
  | p :: rest => if p.1 = k then some p.2 else alookup k rest

theorem alookup_dedupInsert_self (acc : List (List Char × BeerRecord)) (b : BeerRecord) :
    alookup b.id (dedupInsert acc b) = some b := by
  unfold dedupInsert
  split
  case isTrue hmem =>
    induction acc with
    | nil => simp at hmem
    | cons p rest ih =>
      by_cases hp : p.1 = b.id
      · simp [alookup, hp]
      · rw [List.any_cons, Bool.or_eq_true] at hmem
        rcases hmem with hmem | hmem
        · exact absurd (by simpa using hmem) hp
        · simpa [alookup, hp] using ih hmem
  case isFalse hmem =>
    induction acc with
    | nil => simp [alookup]
    | cons p rest ih =>
      rw [List.any_cons, Bool.or_eq_true, not_or] at hmem
      have hp : ¬ p.1 = b.id := by simpa using hmem.1
      simpa [alookup, hp] using ih hmem.2

theorem alookup_map_replace (b : BeerRecord) (k : List Char) (hk : k ≠ b.id) :
    ∀ acc : List (List Char × BeerRecord),
      alookup k (acc.map (fun p => if p.1 = b.id then (p.1, b) else p)) = alookup k acc := by
  intro acc
  induction acc with
  | nil => rfl
  | cons p rest ih =>
    by_cases hp : p.1 = b.id
    · have hpk : ¬ p.1 = k := by
        rw [hp]
        exact fun h => hk h.symm
      simp only [List.map_cons, if_pos hp, alookup, if_neg hpk]
      exact ih
    · by_cases hpk : p.1 = k
      · simp only [List.map_cons, if_neg hp, alookup, if_pos hpk]
      · simp only [List.map_cons, if_neg hp, alookup, if_neg hpk]
        exact ih

theorem alookup_append_single (acc : List (List Char × BeerRecord)) (b : BeerRecord)
    (k : List Char) (hk : k ≠ b.id) :
    alookup k (acc ++ [(b.id, b)]) = alookup k acc := by
  induction acc with
  | nil =>
    have hbk : ¬ b.id = k := fun h => hk h.symm
    simp only [List.nil_append, alookup, if_neg hbk]
  | cons p rest ih =>
    by_cases hpk : p.1 = k
    · simp only [List.cons_append, alookup, if_pos hpk]
    · simp only [List.cons_append, alookup, if_neg hpk]
      exact ih

theorem alookup_dedupInsert_other (acc : List (List Char × BeerRecord)) (b : BeerRecord)
    (k : List Char) (hk : k ≠ b.id) :
    alookup k (dedupInsert acc b) = alookup k acc := by
  unfold dedupInsert
  split
  · exact alookup_map_replace b k hk acc
  · exact alookup_append_single acc b k hk

theorem getLast?_cons_ne {α : Type} (a : α) {l : List α} (h : l ≠ []) :
    (a :: l).getLast? = l.getLast? := by
  cases l with
  | nil => exact absurd rfl h
  | cons b tl => exact List.getLast?_cons_cons

/-- The key-insertion step matching `dedupInsert` on the key lists. -/
def keyInsert (ks : List (List Char)) (k : List Char) : List (List Char) :=
  if k ∈ ks then ks else ks ++ [k]

/-- Keep the first occurrence of every element (the key order of a Python
dict filled by repeated assignment). -/
def firstOccurrences (l : List (List Char)) : List (List Char) :=
  l.foldl keyInsert []

theorem any_key_iff (acc : List (List Char × BeerRecord)) (k : List Char) :
    (acc.any (fun p => p.1 = k)) = true ↔ k ∈ acc.map Prod.fst := by
  rw [List.any_eq_true]
  constructor
  · rintro ⟨p, hp, he⟩
    exact List.mem_map.mpr ⟨p, hp, by simpa using he⟩
  · intro h
    obtain ⟨p, hp, he⟩ := List.mem_map.mp h
    exact ⟨p, hp, by simpa using he⟩

theorem map_fst_replace (b : BeerRecord) :
    ∀ acc : List (List Char × BeerRecord),
      (acc.map (fun p => if p.1 = b.id then (p.1, b) else p)).map Prod.fst =
        acc.map Prod.fst := by
  intro acc
  induction acc with
  | nil => rfl
  | cons p rest ih =>
    by_cases hp : p.1 = b.id
    · simp only [List.map_cons, if_pos hp, ih]
    · simp only [List.map_cons, if_neg hp, ih]

theorem dedupInsert_keys (acc : List (List Char × BeerRecord)) (b : BeerRecord) :
    (dedupInsert acc b).map Prod.fst = keyInsert (acc.map Prod.fst) b.id := by
  unfold dedupInsert keyInsert
  by_cases hmem : (acc.any (fun p => p.1 = b.id)) = true
  · rw [if_pos hmem, if_pos ((any_key_iff acc b.id).mp hmem), map_fst_replace]
  · rw [if_neg hmem, if_neg (fun h => hmem ((any_key_iff acc b.id).mpr h))]
    simp

theorem foldl_dedupInsert_keys :
    ∀ (l : List BeerRecord) (acc : List (List Char × BeerRecord)),
      (l.foldl dedupInsert acc).map Prod.fst =
        (l.map (fun b => b.id)).foldl keyInsert (acc.map Prod.fst) := by
  intro l
  induction l with
  | nil => intro acc; rfl
  | cons b tl ih =>
    intro acc
    simp only [List.foldl_cons, List.map_cons]
    rw [ih, dedupInsert_keys]

theorem keyInsert_nodup {ks : List (List Char)} (h : ks.Nodup) (k : List Char) :
    (keyInsert ks k).Nodup := by
  unfold keyInsert
  split
  · exact h
  · rename_i hk
    simp [List.nodup_append, h, hk]

theorem foldl_keyInsert_nodup :
    ∀ (ids : List (List Char)) (ks : List (List Char)), ks.Nodup →
      (ids.foldl keyInsert ks).Nodup := by
  intro ids
  induction ids with
  | nil => intro ks h; exact h
  | cons k tl ih =>
    intro ks h
    exact ih _ (keyInsert_nodup h k)

theorem keysOK_dedupInsert {acc : List (List Char × BeerRecord)} {b : BeerRecord}
    (h : ∀ p ∈ acc, p.1 = p.2.id) : ∀ p ∈ dedupInsert acc b, p.1 = p.2.id := by
  unfold dedupInsert
  split
  · intro p hp
    obtain ⟨q, hq, he⟩ := List.mem_map.mp hp
    by_cases hqb : q.1 = b.id
    · rw [if_pos hqb] at he
      subst he
      simpa using hqb
    · rw [if_neg hqb] at he
      subst he
      exact h q hq
  · intro p hp
    rcases List.mem_append.mp hp with hp' | hp'
    · exact h p hp'
    · have : p = (b.id, b) := by simpa using hp'
      subst this
      rfl

theorem foldl_keysOK :
    ∀ (l : List BeerRecord) (acc : List (List Char × BeerRecord)),
      (∀ p ∈ acc, p.1 = p.2.id) → ∀ p ∈ l.foldl dedupInsert acc, p.1 = p.2.id := by
  intro l
  induction l with
  | nil => intro acc h; exact h
  | cons b tl ih =>
    intro acc h
    exact ih _ (keysOK_dedupInsert h)

/-- The last record of `l` carrying id `k`. -/
def lastWith (l : List BeerRecord) (k : List Char) : Option BeerRecord :=
  (l.filter (fun b => b.id = k)).getLast?

theorem alookup_foldl_dedupInsert :
    ∀ (l : List BeerRecord) (acc : List (List Char × BeerRecord)) (k : List Char),
      alookup k (l.foldl dedupInsert acc) =
        match lastWith l k with
        | some x => some x
        | none => alookup k acc := by
  intro l
  induction l with
  | nil => intro acc k; rfl
  | cons b tl ih =>
    intro acc k
    rw [List.foldl_cons, ih]
    by_cases hk : k = b.id
    · have hfil : (b :: tl).filter (fun x => x.id = k) = b :: tl.filter (fun x => x.id = k) := by
        rw [List.filter_cons, if_pos (by simpa using hk.symm)]
      cases hlw : lastWith tl k with
      | some x =>
        have hne : tl.filter (fun x => x.id = k) ≠ [] := by
          intro hnil
          unfold lastWith at hlw
          rw [hnil] at hlw
          simp at hlw
        have : lastWith (b :: tl) k = some x := by
          unfold lastWith at hlw ⊢
          rw [hfil, getLast?_cons_ne _ hne, hlw]
        rw [this]
      | none =>
        have hnil : tl.filter (fun x => x.id = k) = [] := by
          unfold lastWith at hlw
          exact List.getLast?_eq_none_iff.mp hlw
        have : lastWith (b :: tl) k = some b := by
          unfold lastWith
          rw [hfil, hnil]
          rfl
        rw [this, hk]
        exact alookup_dedupInsert_self acc b
    · have hfil : (b :: tl).filter (fun x => x.id = k) = tl.filter (fun x => x.id = k) := by
        rw [List.filter_cons, if_neg (by simpa using fun h => hk h.symm)]
      have : lastWith (b :: tl) k = lastWith tl k := by
        unfold lastWith
        rw [hfil]
      rw [this]
      cases hlw : lastWith tl k with
      | some x => rfl
      | none => exact alookup_dedupInsert_other acc b k hk

theorem alookup_of_mem_nodup :
    ∀ (A : List (List Char × BeerRecord)), (A.map Prod.fst).Nodup →
      ∀ p ∈ A, alookup p.1 A = some p.2 := by
  intro A
  induction A with
  | nil => intro _ p hp; simp at hp
  | cons q rest ih =>
    intro hnd p hp
    rw [List.map_cons, List.nodup_cons] at hnd
    rcases List.mem_cons.mp hp with rfl | hp'
    · simp [alookup]
    · have hne : ¬ q.1 = p.1 := by
        intro he
        exact hnd.1 (he ▸ List.mem_map.mpr ⟨p, hp', rfl⟩)
      rw [alookup, if_neg hne]
      exact ih hnd.2 p hp'

/-- The ids surviving deduplication, in order: the first occurrences of the
input ids. -/
theorem dedupById_ids (l : List BeerRecord) :
    (dedupById l).map (fun b => b.id) = firstOccurrences (l.map (fun b => b.id)) := by
  unfold dedupById firstOccurrences
  have hOK := foldl_keysOK l [] (by intro p hp; simp at hp)
  rw [List.map_map]
  have hcongr : (l.foldl dedupInsert []).map ((fun b => b.id) ∘ Prod.snd) =
      (l.foldl dedupInsert []).map Prod.fst :=
    List.map_congr_left (fun p hp => (hOK p hp).symm)
  rw [hcongr, foldl_dedupInsert_keys]
  rfl

theorem dedupById_ids_nodup (l : List BeerRecord) :
    ((dedupById l).map (fun b => b.id)).Nodup := by
  rw [dedupById_ids]
  exact foldl_keyInsert_nodup _ [] List.nodup_nil

/-- Every survivor of deduplication is the last input record with its id. -/
theorem dedupById_last (l : List BeerRecord) :
    ∀ r ∈ dedupById l, (l.filter (fun b => b.id = r.id)).getLast? = some r := by
  intro r hr
  unfold dedupById at hr
  obtain ⟨p, hp, he⟩ := List.mem_map.mp hr
  have hOK := foldl_keysOK l [] (by intro q hq; simp at hq)
  have hnd : ((l.foldl dedupInsert []).map Prod.fst).Nodup := by
    rw [foldl_dedupInsert_keys]
    exact foldl_keyInsert_nodup _ [] List.nodup_nil
  have hl := alookup_of_mem_nodup _ hnd p hp
  have hid : p.1 = r.id := by rw [hOK p hp, he]
  rw [hid, he] at hl
  have hfold := alookup_foldl_dedupInsert l [] r.id
  rw [hl] at hfold
  cases hlw : lastWith l r.id with
  | some x =>
    rw [hlw] at hfold
    unfold lastWith at hlw
    rw [hlw]
    rw [Option.some_inj] at hfold
    rw [hfold]
  | none =>
    rw [hlw] at hfold
    exact absurd hfold (by simp [alookup])

/-! ## Supporting lemmas for the claim theorems -/

/-- A line that does not start with "coming soon" leaves the Billsburg group
state untouched (only the `beers` component can change). -/
theorem bStep_group_frame (now : List Char) (prefixRev : List (List Char))
    (line : List Char) (rest : List (List Char)) (st : BState)
    (h : comingSoonB line = false) :
    (bStep now prefixRev line rest st).group = st.group ∧
      (bStep now prefixRev line rest st).category = st.category := by
  unfold bStep
  rw [if_neg (by simp [h])]
  split
  · exact ⟨rfl, rfl⟩
  · split
    · exact ⟨rfl, rfl⟩
    · split
      · exact ⟨rfl, rfl⟩
      · exact ⟨rfl, rfl⟩

theorem bStep_names {now : List Char} {prefixRev : List (List Char)} {line : List Char}
    {rest : List (List Char)} {st : BState}
    (h : ∀ r ∈ st.beers, r.name ≠ []) :
    ∀ r ∈ (bStep now prefixRev line rest st).beers, r.name ≠ [] := by
  unfold bStep
  split
  · exact h
  · split
    · exact h
    · split
      · exact h
      · rename_i beerName _
        split
        · exact h
        · rename_i hne
          intro r hr
          simp only [List.mem_append, List.mem_singleton] at hr
          rcases hr with hr | hr
          · exact h r hr
          · subst hr
            exact hne

theorem bLoop_names (now : List Char) :
    ∀ (rem prefixRev : List (List Char)) (st : BState),
      (∀ r ∈ st.beers, r.name ≠ []) →
      ∀ r ∈ (bLoop now prefixRev rem st).beers, r.name ≠ [] := by
  intro rem
  induction rem with
  | nil => intro prefixRev st h; exact h
  | cons line rest ih =>
    intro prefixRev st h
    exact ih _ _ (bStep_names h)

/-- Every record emitted by the Billsburg page parse has a non-empty name. -/
theorem parse_billsburg_names (now : List Char) (rawLines : List (List Char)) :
    ∀ r ∈ parse_billsburg_page now rawLines, r.name ≠ [] := by
  unfold parse_billsburg_page
  exact bLoop_names now _ [] _ (by intro r hr; simp at hr)

/-- The 1700 producer guess is non-empty whenever it is produced. -/
theorem producerFromLine1700_ne_nil {l p : List Char}
    (h : producerFromLine1700 l = some p) : p ≠ [] := by
  simp only [producerFromLine1700] at h
  split at h
  · exact absurd h (by simp)
  · split at h
    · exact absurd h (by simp)
    · rename_i hne
      rw [Option.some_inj] at h
      subst h
      exact hne

/-- Tradition with no "what's on tap" line yields an empty run. -/
theorem parse_tradition_no_anchor (now : List Char) (rawLines : List (List Char))
    (h : (((rawLines.map trim).filter (fun l => !l.isEmpty)).findIdx?
        (fun ln => lowerL ln = whatsOnTap)) = none) :
    parse_tradition now rawLines = [] := by
  simp only [parse_tradition]
  rw [h]

/-- 1700 with no "Our Drinks" anchor raises (`Except.error`). -/
theorem parse_1700_no_anchor (now : List Char) (doc : List Node)
    (h : findAnchorRest doc = none) :
    parse_1700_page now doc = Except.error anchorErrMsg := by
  simp only [parse_1700_page]
  rw [h]

/-- The fill step never touches any field other than `style` and `abv`. -/
theorem fillRecord_frame (m : List Char → Option EnrichVal) (b : BeerRecord) :
    (fillRecord m b).id = b.id ∧ (fillRecord m b).breweryName = b.breweryName ∧
      (fillRecord m b).breweryCity = b.breweryCity ∧
      (fillRecord m b).producerName = b.producerName ∧
      (fillRecord m b).name = b.name ∧ (fillRecord m b).ibu = b.ibu ∧
      (fillRecord m b).tapGroup = b.tapGroup ∧ (fillRecord m b).category = b.category ∧
      (fillRecord m b).sourceUrl = b.sourceUrl ∧
      (fillRecord m b).lastScraped = b.lastScraped := by
  cases hm : m (build_name_key b.name) with
  | none => simp [fillRecord, hm]
  | some v =>
    simp only [fillRecord, hm]
    split_ifs <;> simp

/-- The fill step never overwrites a populated `style`. -/
theorem fillRecord_style_kept (m : List Char → Option EnrichVal) (b : BeerRecord)
    {s : List Char} (h : b.style = some s) : (fillRecord m b).style = some s := by
  cases hm : m (build_name_key b.name) with
  | none => simp [fillRecord, hm, h]
  | some v =>
    simp only [fillRecord, hm]
    have hns : ¬ (b.style = none ∧ v.style ≠ []) := by
      rintro ⟨h1, _⟩
      rw [h] at h1
      exact absurd h1 (by simp)
    rw [if_neg hns]
    split_ifs <;> simp [h]

/-- The fill step never overwrites a populated `abv`. -/
theorem fillRecord_abv_kept (m : List Char → Option EnrichVal) (b : BeerRecord)
    {a : DecNum} (h : b.abv = some a) : (fillRecord m b).abv = some a := by
  cases hm : m (build_name_key b.name) with
  | none => simp [fillRecord, hm, h]
  | some v =>
    simp only [fillRecord, hm]
    split_ifs <;> simp_all

/-- The fill step fills an absent `style` from the mapping (when the mapped
style is truthy). -/
theorem fillRecord_style_filled (m : List Char → Option EnrichVal) (b : BeerRecord)
    {v : EnrichVal} (hm : m (build_name_key b.name) = some v)
    (hv : v.style ≠ []) (hb : b.style = none) :
    (fillRecord m b).style = some v.style := by
  simp only [fillRecord, hm]
  have hcond : b.style = none ∧ v.style ≠ [] := ⟨hb, hv⟩
  rw [if_pos hcond]
  split_ifs <;> simp

/-- The fill step fills an absent `abv` from the mapping. -/
theorem fillRecord_abv_filled (m : List Char → Option EnrichVal) (b : BeerRecord)
    {v : EnrichVal} (hm : m (build_name_key b.name) = some v) (hb : b.abv = none) :
    (fillRecord m b).abv = some v.abv := by
  simp only [fillRecord, hm]
  by_cases hs : b.style = none ∧ v.style ≠ []
  · rw [if_pos hs,
      if_pos (show ({ b with style := some v.style } : BeerRecord).abv = none by simpa using hb)]
  · rw [if_neg hs, if_pos hb]

/-! ## Claim theorems

One theorem (plus witness / counterexample where required) per claim of the
frozen claim list. -/

def docC1 : List Node :=
  [⟨Tag.h1, "Our Drinks".toList⟩, ⟨Tag.h2, "Air Force Taps".toList⟩,
    ⟨Tag.h3, "Gold".toList⟩, ⟨Tag.other, "5% ABV | 10 IBU | X".toList⟩,
    ⟨Tag.h3, "Gold".toList⟩, ⟨Tag.other, "5% ABV | 10 IBU | X".toList⟩]

/-- Claim C1, counterexample: the 1700 extractor performs no deduplication, so
a document with two entries resolving to the same (venue, name) yields two
records with the same id — the run's output ids are not unique. -/
theorem claim_C1_counterexample :
    ¬ ((run1700 docC1).map (fun b => b.id)).Nodup := by decide

/-- Claim C1, amended: in the Tradition extractor — the one that has the
deduplication step — every extraction run yields records with pairwise
distinct ids. -/
theorem claim_C1_thm (now : List Char) (rawLines : List (List Char)) :
    ((parse_tradition now rawLines).map (fun b => b.id)).Nodup := by
  simp only [parse_tradition]
  cases hidx : (((rawLines.map trim).filter (fun l => !l.isEmpty)).findIdx?
      (fun ln => lowerL ln = whatsOnTap)) with
  | none => exact List.nodup_nil
  | some start => exact dedupById_ids_nodup _

def lineC2 : List Char := "5.3 ABV".toList

/-- Claim C2, counterexample: the 1700 stat-line parser accepts an ABV with no
percent marker at all — `"5.3 ABV"` yields abv 5.3 although the line contains
no `%`. -/
theorem claim_C2_counterexample :
    (parse_abv_ibu_and_style_from_line lineC2).abv = some ⟨5, 3, 1⟩ ∧
      ¬ pctChar ∈ lineC2 := by decide

/-- Claim C2, amended: the 1700 parser sets abv only when the number is
followed by the ABV keyword (the percent marker is optional), the Billsburg
parser sets abv only when a literal percent marker is present; any parsed abv
is nonnegative, and the first of several candidate matches wins. -/
theorem claim_C2_thm :
    (∀ (l : List Char) (d : DecNum), (parse_abv_ibu_and_style_from_line l).abv = some d →
        0 ≤ d.toRat ∧ containsCI "abv".toList l = true) ∧
      (∀ (l : List Char) (d : DecNum), parse_abvB l = some d →
        pctChar ∈ l ∧ 0 ≤ d.toRat) ∧
      (parse_abv_ibu_and_style_from_line "4% ABV 9% ABV".toList).abv = some ⟨4, 0, 0⟩ := by
  refine ⟨?_, ?_, by decide⟩
  · intro l d h
    exact ⟨DecNum.toRat_nonneg d, searchAbv1700_contains h⟩
  · intro l d h
    exact parse_abvB_only_pct h

/-- Claim C2, witness at a concrete stat line. -/
theorem claim_C2_witness :
    0 ≤ (⟨5, 3, 1⟩ : DecNum).toRat ∧
      containsCI "abv".toList "5.3% ABV | 22 IBU | Acme Brewing".toList = true :=
  claim_C2_thm.1 "5.3% ABV | 22 IBU | Acme Brewing".toList ⟨5, 3, 1⟩ (by decide)

/-- Claim C3, counterexample: the 1700 stat-line parser has no plausibility
range — `"999 IBU"` yields ibu 999 instead of an absent value. -/
theorem claim_C3_counterexample :
    (parse_abv_ibu_and_style_from_line "999 IBU".toList).ibu = some 999 ∧
      ¬ (999 : ℕ) ≤ 150 := by decide

/-- Claim C3, amended: the Billsburg IBU parser sets ibu only with an explicit
IBU keyword and a value in 1–150 (999 is rejected); the 1700 parser requires
the keyword and maps the literal N/A to an absent value, but performs no
range check. -/
theorem claim_C3_thm :
    (∀ (l : List Char) (v : ℕ), parse_ibuB l = some v →
        containsCI "ibu".toList l = true ∧ 1 ≤ v ∧ v ≤ 150) ∧
      parse_ibuB "IBU 999".toList = none ∧
      (parse_abv_ibu_and_style_from_line "N/A IBU".toList).ibu = none ∧
      (∀ (l : List Char) (v : ℕ), (parse_abv_ibu_and_style_from_line l).ibu = some v →
        containsCI "ibu".toList l = true) := by
  refine ⟨fun l v h => parse_ibuB_only h, by decide, by decide, ?_⟩
  intro l v h
  have h2 : searchIbu1700 l = some (some v) := Option.join_eq_some.mp h
  exact searchIbu1700_contains h2

/-- Claim C3, witness at a concrete stat line. -/
theorem claim_C3_witness :
    containsCI "ibu".toList "IBU 22".toList = true ∧ 1 ≤ 22 ∧ 22 ≤ 150 :=
  claim_C3_thm.1 "IBU 22".toList 22 (by decide)

/-- Claim C4, counterexample: the 1700 extractor raises a `RuntimeError`
(modelled as `Except.error`) when the "Our Drinks" anchor is missing, instead
of returning an empty record sequence. -/
theorem claim_C4_counterexample :
    parse_1700_page [] [] = Except.error anchorErrMsg := rfl

/-- Claim C4, amended: with no recognizable anchor, the Tradition extractor
returns an empty record sequence (after a logged warning), but the 1700
extractor raises an exception to the caller. -/
theorem claim_C4_thm :
    (∀ (now : List Char) (rawLines : List (List Char)),
        (((rawLines.map trim).filter (fun l => !l.isEmpty)).findIdx?
            (fun ln => lowerL ln = whatsOnTap)) = none →
        parse_tradition now rawLines = []) ∧
      (∀ (now : List Char) (doc : List Node), findAnchorRest doc = none →
        parse_1700_page now doc = Except.error anchorErrMsg) :=
  ⟨parse_tradition_no_anchor, parse_1700_no_anchor⟩

/-- Claim C4, witness at concrete anchorless inputs. -/
theorem claim_C4_witness :
    parse_tradition [] ["Hours".toList] = [] ∧
      parse_1700_page [] [⟨Tag.other, "x".toList⟩] = Except.error anchorErrMsg :=
  ⟨claim_C4_thm.1 [] ["Hours".toList] (by decide),
    claim_C4_thm.2 [] [⟨Tag.other, "x".toList⟩] (by decide)⟩

def lineC5 : List Char :=
  "4% ABV ".toList ++ [bulletChar] ++ " N/A IBU ".toList ++ [bulletChar] ++
    " Acme Brewing ".toList ++ [bulletChar]

/-- Claim C5, counterexample: on the bullet-separated line
`"4% ABV • N/A IBU • Acme Brewing •"` the 1700 parser returns the whole line
as the producer (the split is on `|` only, and the last chunk is taken with no
ABV/IBU/placeholder filtering), not `"Acme Brewing"`. -/
theorem claim_C5_counterexample :
    (parse_abv_ibu_and_style_from_line lineC5).producer = some lineC5 ∧
      ¬ (parse_abv_ibu_and_style_from_line lineC5).producer =
          some "Acme Brewing".toList := by decide

def docC5 : List Node :=
  [⟨Tag.h1, "Our Drinks".toList⟩, ⟨Tag.h2, "Taps".toList⟩,
    ⟨Tag.h3, "Gold".toList⟩, ⟨Tag.other, "5.3% ABV | 22 IBU |".toList⟩]

/-- Claim C5, amended: the producer is the stripped last pipe-separated chunk
of the stat line whenever that chunk is non-empty — regardless of whether it
is an ABV or IBU segment — and the record's producer defaults to the
configured brewery name when it is empty. -/
theorem claim_C5_thm :
    (∀ (l p : List Char), producerFromLine1700 l = some p → p ≠ []) ∧
      (parse_abv_ibu_and_style_from_line "5.3% ABV | 22 IBU | Acme Brewing".toList).producer =
        some "Acme Brewing".toList ∧
      (run1700 docC5).map (fun b => b.producerName) = [breweryName1700] := by
  refine ⟨fun l p h => producerFromLine1700_ne_nil h, by decide, by decide⟩

/-- Claim C5, witness at a concrete line. -/
theorem claim_C5_witness : ("Acme Brewing".toList : List Char) ≠ [] :=
  claim_C5_thm.1 "x | Acme Brewing".toList "Acme Brewing".toList (by decide)

def docC6hours : List Node :=
  [⟨Tag.h1, "Our Drinks".toList⟩, ⟨Tag.h2, "Hours".toList⟩,
    ⟨Tag.h3, "Gold".toList⟩, ⟨Tag.other, "5% ABV | 10 IBU | X".toList⟩]

/-- Claim C6, counterexample: in the 1700 extractor every `h2` after the
anchor becomes the current tap group — an unrelated heading "Hours" does
change the state and is emitted as the records' tap group. -/
theorem claim_C6_counterexample :
    (run1700 docC6hours).map (fun b => (b.tapGroup, b.category)) =
      [("Hours".toList, "on_tap".toList)] := by decide

def docC6res : List Node :=
  [⟨Tag.h1, "Our Drinks".toList⟩, ⟨Tag.h2, "Reserves - Guest".toList⟩,
    ⟨Tag.h3, "Gold".toList⟩, ⟨Tag.other, "5% ABV | 10 IBU | X".toList⟩]

def docC6taps : List Node :=
  [⟨Tag.h1, "Our Drinks".toList⟩, ⟨Tag.h2, "Air Force Taps - Lagers".toList⟩,
    ⟨Tag.h3, "Gold".toList⟩, ⟨Tag.other, "5% ABV | 10 IBU | X".toList⟩]

/-- Claim C6, amended: in the Billsburg extractor only lines starting with
"coming soon" change the group/category state; in the 1700 extractor a
heading containing "Reserves" yields the guest/non-alcoholic category and a
taps heading the on-tap category, but every `h2` (even "Hours") becomes the
current group. -/
theorem claim_C6_thm :
    (∀ (now : List Char) (prefixRev : List (List Char)) (line : List Char)
        (rest : List (List Char)) (st : BState), comingSoonB line = false →
        (bStep now prefixRev line rest st).group = st.group ∧
        (bStep now prefixRev line rest st).category = st.category) ∧
      (run1700 docC6res).map (fun b => b.category) = ["guest_na".toList] ∧
      (run1700 docC6taps).map (fun b => b.category) = ["on_tap".toList] := by
  refine ⟨fun now pre line rest st h => bStep_group_frame now pre line rest st h,
    by decide, by decide⟩

/-- Claim C6, witness: a concrete non-matching line leaving the Billsburg
state unchanged. -/
theorem claim_C6_witness :
    (bStep [] [] "Juicy IPA".toList [] ⟨"On Tap".toList, "on_tap".toList, []⟩).group =
        "On Tap".toList ∧
      (bStep [] [] "Juicy IPA".toList [] ⟨"On Tap".toList, "on_tap".toList, []⟩).category =
        "on_tap".toList :=
  claim_C6_thm.1 [] [] "Juicy IPA".toList [] ⟨"On Tap".toList, "on_tap".toList, []⟩ (by decide)

/-- Claim C7: the cross-source enricher fills only absent `style`/`abv`
fields, never changes a populated one, and never changes any other field. -/
theorem claim_C7_thm (m : List Char → Option EnrichVal) (b : BeerRecord) :
    ((fillRecord m b).id = b.id ∧ (fillRecord m b).breweryName = b.breweryName ∧
        (fillRecord m b).breweryCity = b.breweryCity ∧
        (fillRecord m b).producerName = b.producerName ∧
        (fillRecord m b).name = b.name ∧ (fillRecord m b).ibu = b.ibu ∧
        (fillRecord m b).tapGroup = b.tapGroup ∧
        (fillRecord m b).category = b.category ∧
        (fillRecord m b).sourceUrl = b.sourceUrl ∧
        (fillRecord m b).lastScraped = b.lastScraped) ∧
      (∀ s, b.style = some s → (fillRecord m b).style = some s) ∧
      (∀ a, b.abv = some a → (fillRecord m b).abv = some a) ∧
      (∀ v, m (build_name_key b.name) = some v → v.style ≠ [] → b.style = none →
        (fillRecord m b).style = some v.style) ∧
      (∀ v, m (build_name_key b.name) = some v → b.abv = none →
        (fillRecord m b).abv = some v.abv) :=
  ⟨fillRecord_frame m b,
    fun _ h => fillRecord_style_kept m b h,
    fun _ h => fillRecord_abv_kept m b h,
    fun _ hm hv hb => fillRecord_style_filled m b hm hv hb,
    fun _ hm hb => fillRecord_abv_filled m b hm hb⟩

def recC7 : BeerRecord :=
  { id := "x".toList
    breweryName := []
    breweryCity := []
    producerName := []
    name := "Golden".toList
    style := none
    abv := some ⟨5, 0, 1⟩
    ibu := none
    tapGroup := []
    category := []
    sourceUrl := []
    lastScraped := [] }

def mapC7 : List Char → Option EnrichVal :=
  fun k => if k = "golden".toList then some ⟨"IPA".toList, ⟨6, 0, 1⟩⟩ else none

/-- Claim C7, witness: the spec's example — a record with absent style and
abv 5.0 merged with a secondary entry (style IPA, abv 6.0) gets style IPA and
keeps abv 5.0. -/
theorem claim_C7_witness :
    (fillRecord mapC7 recC7).style = some "IPA".toList ∧
      (fillRecord mapC7 recC7).abv = some ⟨5, 0, 1⟩ :=
  ⟨(claim_C7_thm mapC7 recC7).2.2.2.1 ⟨"IPA".toList, ⟨6, 0, 1⟩⟩ (by decide) (by decide) rfl,
    (claim_C7_thm mapC7 recC7).2.2.1 ⟨5, 0, 1⟩ rfl⟩

def strC8 : List Char := "a".toList ++ [rsqChar] ++ "b".toList

/-- Claim C8, counterexample: the Billsburg/Tradition slugify does not strip
the smart quote U+2019 (its character class holds the mojibake bytes
instead), so `a’b` slugifies to `a-b` where the spec's description demands
`ab`. -/
theorem claim_C8_counterexample :
    slugifyB strC8 = "a-b".toList ∧ specSlug strC8 = "ab".toList ∧
      ¬ slugifyB strC8 = specSlug strC8 := by decide

/-- Claim C8, amended: both slugify variants deterministically produce only
lowercase alphanumerics and hyphens with no doubled and no leading/trailing
hyphen; the 1700 variant also strips the smart quote (`a’b` to `ab`), while
the Billsburg/Tradition variant replaces it with a hyphen. -/
theorem claim_C8_thm :
    (∀ s : List Char,
        (∀ c ∈ slugify1700 s, (isGoodC c || c = dashChar) = true) ∧
        hasDD (slugify1700 s) = false ∧
        ¬ (slugify1700 s).head? = some dashChar ∧
        ¬ (slugify1700 s).getLast? = some dashChar) ∧
      (∀ s : List Char,
        (∀ c ∈ slugifyB s, (isGoodC c || c = dashChar) = true) ∧
        hasDD (slugifyB s) = false ∧
        ¬ (slugifyB s).head? = some dashChar ∧
        ¬ (slugifyB s).getLast? = some dashChar) ∧
      slugify1700 strC8 = "ab".toList :=
  ⟨slugify1700_props, slugifyB_props, by decide⟩

/-- Claim C8, witness: the slug of a concrete string obeys the character-set
invariant. -/
theorem claim_C8_witness :
    (isGoodC 'h' || 'h' = dashChar) = true ∧
      hasDD (slugify1700 "Hello, World!".toList) = false :=
  ⟨(claim_C8_thm.1 "Hello, World!".toList).1 'h' (by decide),
    (claim_C8_thm.1 "Hello, World!".toList).2.1⟩

def docC9 : List Node :=
  [⟨Tag.h1, "Our Drinks".toList⟩, ⟨Tag.h2, "Taps".toList⟩,
    ⟨Tag.h3, []⟩, ⟨Tag.other, "5% ABV | 10 IBU | X".toList⟩]

/-- Claim C9, counterexample: the 1700 extractor never checks the resolved
name — an `h3` with empty text together with a stat line yields a record
whose name is the empty string. -/
theorem claim_C9_counterexample :
    (run1700 docC9).map (fun b => b.name) = [[]] := by decide

/-- Claim C9, amended: the Billsburg extractor discards entries that cannot
be resolved to a non-empty name, so all its records carry non-empty names;
the 1700 extractor lacks the check. -/
theorem claim_C9_thm (now : List Char) (rawLines : List (List Char)) :
    ∀ r ∈ parse_billsburg_page now rawLines, r.name ≠ [] :=
  parse_billsburg_names now rawLines

def bLinesC9 : List (List Char) := ["Golden Ale".toList, "Billsburg Brewery".toList]

def recC9 : BeerRecord :=
  { id := "billsburg-brewery-golden-ale".toList
    breweryName := breweryNameB
    breweryCity := breweryCityB
    producerName := breweryNameB
    name := "Golden Ale".toList
    style := none
    abv := none
    ibu := none
    tapGroup := "On Tap".toList
    category := "on_tap".toList
    sourceUrl := taplistUrl
    lastScraped := [] }

/-- Claim C9, witness: the record emitted for a concrete Billsburg document
has a non-empty name. -/
theorem claim_C9_witness : recC9.name ≠ [] :=
  claim_C9_thm [] bLinesC9 recC9 (by decide)

/-- Claim C10: the Tradition deduplication keeps, for every id, the
last-parsed record with that id, at the position of the id's first
occurrence; the relative order of distinct ids is preserved. -/
theorem claim_C10_thm (l : List BeerRecord) :
    (dedupById l).map (fun b => b.id) = firstOccurrences (l.map (fun b => b.id)) ∧
      ∀ r ∈ dedupById l, (l.filter (fun b => b.id = r.id)).getLast? = some r :=
  ⟨dedupById_ids l, dedupById_last l⟩

def recA1 : BeerRecord :=
  { id := "a".toList, breweryName := [], breweryCity := [], producerName := [],
    name := "A".toList, style := none, abv := none, ibu := none,
    tapGroup := [], category := [], sourceUrl := [], lastScraped := "1".toList }

def recB1 : BeerRecord :=
  { id := "b".toList, breweryName := [], breweryCity := [], producerName := [],
    name := "B".toList, style := none, abv := none, ibu := none,
    tapGroup := [], category := [], sourceUrl := [], lastScraped := "1".toList }

def recA2 : BeerRecord :=
  { id := "a".toList, breweryName := [], breweryCity := [], producerName := [],
    name := "A".toList, style := none, abv := none, ibu := none,
    tapGroup := [], category := [], sourceUrl := [], lastScraped := "2".toList }

/-- Claim C10, witness: with input `[recA1, recB1, recA2]` the survivor for
id "a" is the later record `recA2`. -/
theorem claim_C10_witness :
    ([recA1, recB1, recA2].filter (fun b => b.id = recA2.id)).getLast? = some recA2 :=
  (claim_C10_thm [recA1, recB1, recA2]).2 recA2 (by decide)

end LocalBeer
